import Mathlib

/-
Verification of the two solutions in this repository:
- `two_sum` (src/1_twoSum_python_mostEfficient.py, Solution.two_sum):
  single left-to-right scan keeping a hashmap from seen value to its index;
  at position i with value v it looks up the complement target - v and,
  if present, returns the stored index together with i, otherwise stores
  v -> i (overwriting any earlier index for v) and continues; falling off
  the end yields the implicit "no result" (None), embedded as `none`.
- `containsDuplicate` (src/271containsDuplicatePythonMostEfficient.py,
  Solution.containsDuplicate): single scan keeping the set of values seen
  so far, returning true on the first repeated value and false at the end.

The Python dict is embedded as an association list where insertion conses
at the front, so lookup (which returns the first hit) sees the most recent
binding for a value, exactly the dict's overwrite semantics.  The Python
set is embedded as the list of values inserted so far, queried by
membership.
-/

namespace LeetCode

/-- The loop of `Solution.two_sum`: `hashmap` holds the bindings made so
far (front = most recent), `i` is the current position, and the third
argument is the part of the array not yet scanned. -/
def two_sum_go (target : Int) : List (Int × Nat) → Nat → List Int → Option (Nat × Nat)
  | _, _, [] => none
  | hashmap, i, v :: rest =>
    match hashmap.lookup (target - v) with
    | some j => some (j, i)
    | none => two_sum_go target ((v, i) :: hashmap) (i + 1) rest

/-- `Solution.two_sum arr target`: the scan starts with an empty dict at
position 0; the Python fall-through return of `None` is `none`. -/
def two_sum (arr : List Int) (target : Int) : Option (Nat × Nat) :=
  two_sum_go target [] 0 arr

/-- The loop of `Solution.containsDuplicate`: `seen` is the set of values
inserted so far. -/
def containsDuplicate_go (seen : List Int) : List Int → Bool
  | [] => false
  | n :: rest =>
    if seen.contains n then true
    else containsDuplicate_go (n :: seen) rest

/-- `Solution.containsDuplicate nums`: the scan starts with an empty set. -/
def containsDuplicate (nums : List Int) : Bool :=
  containsDuplicate_go [] nums

/-- Looking up in the association list after the dict update
`hashmap[v] = i`: the new binding shadows any older one for `v`. -/
lemma lookup_cons_eq (x v : Int) (i : Nat) (hm : List (Int × Nat)) :
    ((v, i) :: hm).lookup x = if x = v then some i else hm.lookup x := by
  simp [List.lookup]
  split <;> simp_all

/-- Soundness invariant of the two-sum loop: if every binding in `hashmap`
maps a value to an earlier index of `arr` holding that value, then any pair
returned by the remaining scan is ordered and its values sum to the
target. -/
lemma two_sum_go_sound (t : Int) (arr : List Int) :
    ∀ (rest : List Int) (hm : List (Int × Nat)) (m : Nat),
      (∀ d, rest[d]? = arr[(m + d)]?) →
      (∀ v k, hm.lookup v = some k → k < m ∧ arr[k]? = some v) →
      ∀ i j, two_sum_go t hm m rest = some (i, j) →
        i < j ∧ j < arr.length ∧
          ∃ a b, arr[i]? = some a ∧ arr[j]? = some b ∧ a + b = t := by
  intro rest
  induction rest with
  | nil =>
    intro hm m _ _ i j h
    simp [two_sum_go] at h
  | cons v rest ih =>
    intro hm m hrest hhm i j h
    have hv : arr[m]? = some v := by simpa using (hrest 0).symm
    rw [two_sum_go] at h
    cases hl : hm.lookup (t - v) with
    | some k =>
      rw [hl] at h
      simp only [Option.some.injEq, Prod.mk.injEq] at h
      obtain ⟨hik, hjm⟩ := h
      subst hik; subst hjm
      obtain ⟨hkm, hk⟩ := hhm _ _ hl
      refine ⟨hkm, (List.getElem?_eq_some.mp hv).1, t - v, v, hk, hv, by ring⟩
    | none =>
      rw [hl] at h
      refine ih ((v, m) :: hm) (m + 1) ?_ ?_ i j h
      · intro d
        have := hrest (d + 1)
        simpa [Nat.add_assoc, Nat.add_comm 1 d] using this
      · intro x k hxk
        rw [lookup_cons_eq] at hxk
        by_cases hxv : x = v
        · simp [hxv] at hxk
          subst hxk
          exact ⟨Nat.lt_succ_self m, hxv ▸ hv⟩
        · simp [hxv] at hxk
          obtain ⟨hkm, hk⟩ := hhm _ _ hxk
          exact ⟨Nat.lt_succ_of_lt hkm, hk⟩

/-- Among the indices below `m` holding value `x` there is a greatest
one. -/
lemma exists_max_index (x : Int) (arr : List Int) (m : Nat) :
    ∀ k, k < m → arr[k]? = some x →
      ∃ k0, k0 < m ∧ arr[k0]? = some x ∧ ∀ k', k0 < k' → k' < m → arr[k']? ≠ some x := by
  induction m with
  | zero => intro k hk; omega
  | succ n ih =>
    intro k hk hkx
    by_cases hP : arr[n]? = some x
    · exact ⟨n, Nat.lt_succ_self n, hP, fun k' h1 h2 => absurd h2 (by omega)⟩
    · have hk' : k < n := by
        rcases (by omega : k < n ∨ k = n) with h | h
        · exact h
        · subst h; exact absurd hkx hP
      obtain ⟨k0, h1, h2, h3⟩ := ih k hk' hkx
      refine ⟨k0, Nat.lt_succ_of_lt h1, h2, fun k' ha hb => ?_⟩
      rcases (by omega : k' < n ∨ k' = n) with hb' | hb'
      · exact h3 k' ha hb'
      · subst hb'; exact hP

/-- Completeness invariant of the two-sum loop: if `hashmap` binds exactly
each already-scanned value to its most recent index, and no pair completed
before position `m`, then (given some valid pair exists in `arr`) the scan
returns the pair completing at the earliest position, with the first
component the most recent earlier occurrence of the complement. -/
lemma two_sum_go_complete (t : Int) (arr : List Int) :
    ∀ (rest : List Int) (hm : List (Int × Nat)) (m : Nat),
      (∀ d, rest[d]? = arr[(m + d)]?) →
      arr.length = m + rest.length →
      (∀ (x : Int) (k : Nat), hm.lookup x = some k ↔
        (k < m ∧ arr[k]? = some x ∧ ∀ k', k < k' → k' < m → arr[k']? ≠ some x)) →
      (∀ (k j : Nat) (a b : Int), k < j → j < m → arr[k]? = some a → arr[j]? = some b →
        a + b ≠ t) →
      (∃ (k j : Nat) (a b : Int), k < j ∧ arr[k]? = some a ∧ arr[j]? = some b ∧ a + b = t) →
      ∃ (i j : Nat) (b : Int), two_sum_go t hm m rest = some (i, j) ∧
        arr[j]? = some b ∧ arr[i]? = some (t - b) ∧ i < j ∧
        (∀ (j' k' : Nat) (a' b' : Int), k' < j' → j' < j → arr[k']? = some a' →
          arr[j']? = some b' → a' + b' ≠ t) ∧
        (∀ i', i < i' → i' < j → arr[i']? ≠ some (t - b)) := by
  intro rest
  induction rest with
  | nil =>
    intro hm m hrest hlen hhm hnoc hex
    obtain ⟨k, j, a, b, hkj, ha, hb, hab⟩ := hex
    have hj : j < arr.length := (List.getElem?_eq_some.mp hb).1
    have hjm : j < m := by simp at hlen; omega
    exact absurd hab (hnoc k j a b hkj hjm ha hb)
  | cons v rest ih =>
    intro hm m hrest hlen hhm hnoc hex
    have hv : arr[m]? = some v := by simpa using (hrest 0).symm
    rw [two_sum_go]
    cases hl : hm.lookup (t - v) with
    | some k =>
      obtain ⟨hkm, hk, hmax⟩ := (hhm _ _).mp hl
      have hiv : arr[k]? = some (t - v) := hk
      refine ⟨k, m, v, rfl, hv, hiv, hkm, ?_, hmax⟩
      intro j' k' a' b' hk'j' hj'm ha' hb'
      exact hnoc k' j' a' b' hk'j' hj'm ha' hb'
    | none =>
      refine ih ((v, m) :: hm) (m + 1) ?_ ?_ ?_ ?_ hex
      · intro d
        have := hrest (d + 1)
        simpa [Nat.add_assoc, Nat.add_comm 1 d] using this
      · simp at hlen ⊢; omega
      · intro x k
        rw [lookup_cons_eq]
        by_cases hxv : x = v
        · subst hxv
          simp only [if_pos rfl]
          constructor
          · intro h
            have hk : k = m := (Option.some.inj h).symm
            subst hk
            exact ⟨Nat.lt_succ_self k, hv, fun k' h1 h2 => absurd h1 (by omega)⟩
          · rintro ⟨hk, hkx, hmaxk⟩
            have hkm : k = m := by
              by_contra hne
              exact hmaxk m (by omega) (Nat.lt_succ_self m) hv
            simp [hkm]
        · simp only [if_neg hxv]
          rw [hhm]
          constructor
          · rintro ⟨hk, hkx, hmaxk⟩
            refine ⟨by omega, hkx, fun k' h1 h2 => ?_⟩
            rcases (by omega : k' < m ∨ k' = m) with h3 | h3
            · exact hmaxk k' h1 h3
            · subst h3
              rw [hv]
              intro heq
              exact hxv (Option.some.inj heq).symm
          · rintro ⟨hk, hkx, hmaxk⟩
            have hkm : k ≠ m := by
              intro heq
              subst heq
              rw [hv] at hkx
              exact hxv (Option.some.inj hkx).symm
            exact ⟨by omega, hkx, fun k' h1 h2 => hmaxk k' h1 (by omega)⟩
      · intro k j a b hkj hjm ha hb hab
        rcases (by omega : j < m ∨ j = m) with h | h
        · exact hnoc k j a b hkj h ha hb hab
        · subst h
          have hbv : b = v := by rw [hv] at hb; exact (Option.some.inj hb).symm
          have hatv : a = t - v := by rw [hbv] at hab; linarith
          rw [hatv] at ha
          obtain ⟨k0, hk0m, hk0, hmax0⟩ := exists_max_index (t - v) arr j k hkj ha
          have hsome : hm.lookup (t - v) = some k0 := (hhm _ _).mpr ⟨hk0m, hk0, hmax0⟩
          rw [hl] at hsome
          exact Option.noConfusion hsome

/-- Characterisation of the duplicate-detector loop: it reports true
exactly when a remaining value was already seen or the remaining values
repeat among themselves. -/
lemma containsDuplicate_go_eq_true (l : List Int) :
    ∀ seen : List Int,
      containsDuplicate_go seen l = true ↔ (∃ x ∈ l, x ∈ seen) ∨ ¬ l.Nodup := by
  induction l with
  | nil => intro seen; simp [containsDuplicate_go]
  | cons n rest ih =>
    intro seen
    by_cases hn : seen.contains n
    · have hn' : n ∈ seen := by simpa using hn
      simp only [containsDuplicate_go, hn, if_true, true_iff]
      exact Or.inl ⟨n, by simp, hn'⟩
    · have hn' : n ∉ seen := by simpa using hn
      rw [containsDuplicate_go, if_neg hn, ih]
      simp only [List.nodup_cons, not_and_or, not_not]
      constructor
      · rintro (⟨x, hx, hxs⟩ | hnd)
        · rcases List.mem_cons.mp hxs with rfl | hxs'
          · exact Or.inr (Or.inl hx)
          · exact Or.inl ⟨x, List.mem_cons_of_mem n hx, hxs'⟩
        · exact Or.inr (Or.inr hnd)
      · rintro (⟨x, hx, hxs⟩ | (hnr | hnd))
        · rcases List.mem_cons.mp hx with rfl | hx'
          · exact absurd hxs hn'
          · exact Or.inl ⟨x, hx', List.mem_cons_of_mem n hxs⟩
        · exact Or.inl ⟨n, hnr, List.mem_cons_self n seen⟩
        · exact Or.inr hnd

/-- `containsDuplicate` decides the negation of `Nodup`. -/
lemma containsDuplicate_eq_true_iff (l : List Int) :
    containsDuplicate l = true ↔ ¬ l.Nodup := by
  rw [containsDuplicate, containsDuplicate_go_eq_true]
  simp

/-- Claim C1: whenever `two_sum` returns a pair `(i, j)`, the indices are
distinct with `i < j < length`, and the values stored at them sum to the
target; in particular the same index is never returned twice and a value
never pairs with itself at a single position. -/
theorem two_sum_sound (S : List Int) (t : Int) (i j : Nat)
    (h : two_sum S t = some (i, j)) :
    i ≠ j ∧ i < j ∧ j < S.length ∧
      ∃ a b, S[i]? = some a ∧ S[j]? = some b ∧ a + b = t := by
  have hs := two_sum_go_sound t S S [] 0 (by simp)
    (by intro v k hk; simp [List.lookup] at hk) i j h
  exact ⟨Nat.ne_of_lt hs.1, hs.1, hs.2.1, hs.2.2⟩

/-- Witness for C1 at `two_sum [1,2,3,4,5] 9 = some (3, 4)`. -/
theorem two_sum_sound_witness :
    two_sum [1, 2, 3, 4, 5] 9 = some (3, 4) ∧
      (3 ≠ 4 ∧ 3 < 4 ∧ 4 < ([1, 2, 3, 4, 5] : List Int).length ∧
        ∃ a b, ([1, 2, 3, 4, 5] : List Int)[3]? = some a ∧
          ([1, 2, 3, 4, 5] : List Int)[4]? = some b ∧ a + b = 9) :=
  ⟨by decide, two_sum_sound [1, 2, 3, 4, 5] 9 3 4 (by decide)⟩

/-- Claim C2: `containsDuplicate` returns true exactly when two distinct
positions of the input hold the same value. -/
theorem containsDuplicate_iff_exists (S : List Int) :
    containsDuplicate S = true ↔ ∃ i j : Fin S.length, i ≠ j ∧ S.get i = S.get j := by
  rw [containsDuplicate_eq_true_iff, List.nodup_iff_injective_get]
  constructor
  · intro h
    rw [Function.Injective] at h
    push_neg at h
    obtain ⟨i, j, hget, hne⟩ := h
    exact ⟨i, j, hne, hget⟩
  · rintro ⟨i, j, hne, hget⟩ hinj
    exact hne (hinj hget)

/-- Claim C3: when no two distinct positions of `S` hold values summing to
`t`, `two_sum` returns the ordinary not-found value `none` (the embedding
is a total function into `Option`, so this is a normal result, not an
exception); the empty list is the special case with a vacuous
hypothesis. -/
theorem two_sum_not_found (S : List Int) (t : Int)
    (h : ∀ (k j : Nat) (a b : Int), k < j → S[k]? = some a → S[j]? = some b → a + b ≠ t) :
    two_sum S t = none := by
  cases hr : two_sum S t with
  | none => rfl
  | some p =>
    have hs := two_sum_go_sound t S S [] 0 (by simp)
      (by intro v k hk; simp [List.lookup] at hk) p.1 p.2 (by simpa using hr)
    obtain ⟨hij, hj, a, b, ha, hb, hab⟩ := hs
    exact absurd hab (h p.1 p.2 a b hij ha hb)

/-- Witness for C3 at the empty list: `two_sum [] 5 = none`. -/
theorem two_sum_not_found_witness : two_sum [] 5 = none :=
  two_sum_not_found [] 5 (by simp)

/-- Claim C4: when some valid pair exists, `two_sum` returns the
earliest-completing pair: the second index `j` is the smallest position at
which any pair completes in the left-to-right scan, and the first index is
the most recent position before `j` holding the complement `t - S[j]`
(later duplicates overwrite the stored index of a value). -/
theorem two_sum_earliest (S : List Int) (t : Int)
    (hex : ∃ (k j : Nat) (a b : Int), k < j ∧ S[k]? = some a ∧ S[j]? = some b ∧ a + b = t) :
    ∃ (i j : Nat) (b : Int), two_sum S t = some (i, j) ∧
      S[j]? = some b ∧ S[i]? = some (t - b) ∧ i < j ∧
      (∀ (j' k' : Nat) (a' b' : Int), k' < j' → j' < j → S[k']? = some a' →
        S[j']? = some b' → a' + b' ≠ t) ∧
      (∀ i', i < i' → i' < j → S[i']? ≠ some (t - b)) := by
  refine two_sum_go_complete t S S [] 0 (by simp) (by simp) ?_ ?_ hex
  · intro x k
    simp [List.lookup]
  · intro k j a b _ hj
    omega

/-- Witness for C4 at `two_sum [3,3,4,5] 7`, where the duplicate value 3
makes the returned first index the later occurrence. -/
theorem two_sum_earliest_witness :
    (∃ (k j : Nat) (a b : Int), k < j ∧ ([3, 3, 4, 5] : List Int)[k]? = some a ∧
      ([3, 3, 4, 5] : List Int)[j]? = some b ∧ a + b = 7) ∧
    (∃ (i j : Nat) (b : Int), two_sum [3, 3, 4, 5] 7 = some (i, j) ∧
      ([3, 3, 4, 5] : List Int)[j]? = some b ∧
      ([3, 3, 4, 5] : List Int)[i]? = some (7 - b) ∧ i < j ∧
      (∀ (j' k' : Nat) (a' b' : Int), k' < j' → j' < j →
        ([3, 3, 4, 5] : List Int)[k']? = some a' →
        ([3, 3, 4, 5] : List Int)[j']? = some b' → a' + b' ≠ 7) ∧
      (∀ i', i < i' → i' < j → ([3, 3, 4, 5] : List Int)[i']? ≠ some (7 - b))) :=
  ⟨⟨0, 2, 3, 4, by decide, rfl, rfl, by decide⟩,
    two_sum_earliest [3, 3, 4, 5] 7 ⟨0, 2, 3, 4, by decide, rfl, rfl, by decide⟩⟩

/-- Claim C5: both embedded functions are total on every integer sequence
(and target): `two_sum` always yields a value of its declared `Option`
shape and `containsDuplicate` always yields a boolean; no error branch
exists. -/
theorem result_shape_total (S : List Int) (t : Int) :
    (two_sum S t = none ∨ ∃ i j : Nat, two_sum S t = some (i, j)) ∧
      (containsDuplicate S = false ∨ containsDuplicate S = true) := by
  constructor
  · cases h : two_sum S t with
    | none => exact Or.inl rfl
    | some p => exact Or.inr ⟨p.1, p.2, by simp [h]⟩
  · cases h : containsDuplicate S
    · exact Or.inl rfl
    · exact Or.inr rfl

/-- Claim C6: with target `2 * v`, a returned pair whose second value is
`v` forces a distinct earlier position also holding `v`: a single
occurrence never pairs with itself. -/
theorem two_sum_self_pair (S : List Int) (v : Int) (i j : Nat)
    (h : two_sum S (2 * v) = some (i, j)) (hj : S[j]? = some v) :
    i ≠ j ∧ S[i]? = some v := by
  have hs := two_sum_go_sound (2 * v) S S [] 0 (by simp)
    (by intro x k hk; simp [List.lookup] at hk) i j h
  obtain ⟨hij, hjlen, a, b, ha, hb, hab⟩ := hs
  have hbv : b = v := by rw [hj] at hb; exact (Option.some.inj hb).symm
  have hav : a = v := by rw [hbv] at hab; linarith
  exact ⟨Nat.ne_of_lt hij, hav ▸ ha⟩

/-- Witness for C6: `two_sum [5, 5] 10 = some (0, 1)`, and both positions
hold the value 5. -/
theorem two_sum_self_pair_witness :
    two_sum [5, 5] (2 * 5) = some (0, 1) ∧ ([5, 5] : List Int)[1]? = some 5 ∧
      (0 ≠ 1 ∧ ([5, 5] : List Int)[0]? = some 5) :=
  ⟨by decide, rfl, two_sum_self_pair [5, 5] 5 0 1 (by decide) rfl⟩

/-- Claim C7: `containsDuplicate` on the empty sequence returns `false`. -/
theorem containsDuplicate_nil : containsDuplicate [] = false := rfl

/-- Claim C8: both embedded functions are deterministic pure functions:
identical inputs give identical outputs (in the embedding there is no
state to survive a call and the input list is immutable). -/
theorem pure_deterministic (S S' : List Int) (t t' : Int) (hS : S = S') (ht : t = t') :
    two_sum S t = two_sum S' t' ∧ containsDuplicate S = containsDuplicate S' := by
  subst hS; subst ht; exact ⟨rfl, rfl⟩

/-- Witness for C8 at a concrete input. -/
theorem pure_deterministic_witness :
    ([1, 2] : List Int) = [1, 2] ∧ (3 : Int) = 3 ∧
      (two_sum [1, 2] 3 = two_sum [1, 2] 3 ∧
        containsDuplicate [1, 2] = containsDuplicate [1, 2]) :=
  ⟨rfl, rfl, pure_deterministic [1, 2] [1, 2] 3 3 rfl rfl⟩

/-- Claim C9: `two_sum [1,2,3,4,5] 9` returns the index pair `(3, 4)`,
whose values are 4 and 5. -/
theorem two_sum_example : two_sum [1, 2, 3, 4, 5] 9 = some (3, 4) ∧
    ([1, 2, 3, 4, 5] : List Int)[3]? = some 4 ∧
    ([1, 2, 3, 4, 5] : List Int)[4]? = some 5 := by
  refine ⟨?_, rfl, rfl⟩
  rfl

/-- Claim C10: `containsDuplicate` is invariant under permutation of its
input: the boolean answer depends only on the multiset of values. -/
theorem containsDuplicate_perm (S S' : List Int) (h : S.Perm S') :
    containsDuplicate S = containsDuplicate S' := by
  cases hS : containsDuplicate S with
  | true =>
    have h1 : ¬ S.Nodup := (containsDuplicate_eq_true_iff S).mp hS
    have h2 : ¬ S'.Nodup := fun hn => h1 (h.nodup_iff.mpr hn)
    exact ((containsDuplicate_eq_true_iff S').mpr h2).symm
  | false =>
    cases hS' : containsDuplicate S' with
    | false => rfl
    | true =>
      have h2 : ¬ S'.Nodup := (containsDuplicate_eq_true_iff S').mp hS'
      have h3 : ¬ S.Nodup := fun hn => h2 (h.nodup_iff.mp hn)
      exact absurd ((containsDuplicate_eq_true_iff S).mpr h3) (by simp [hS])

/-- Witness for C10 at a concrete permutation pair. -/
theorem containsDuplicate_perm_witness :
    ([1, 2, 1] : List Int).Perm [2, 1, 1] ∧
      containsDuplicate [1, 2, 1] = containsDuplicate [2, 1, 1] :=
  ⟨by decide, containsDuplicate_perm [1, 2, 1] [2, 1, 1] (by decide)⟩

end LeetCode
